import Mathlib

/-!
Verification of the MOORA family of MADM ranking methods
(`skcriteria/madm/moora.py`): ratio, reference point, full multiplicative
form (FMF) and Multi-MOORA.

Matrices are embedded as functions `Fin n → Fin m → ℚ` (rows =
alternatives, columns = criteria).  The square root used by the vector
norm and the natural logarithm used by FMF are transcendental, so they
are passed as explicit function parameters; theorems that need a
property of them (e.g. that the square root of a positive number is
positive) take it as a hypothesis.

The helper modules `rank`, `norm` and `util` are not part of the source
tree; the definitions below that model them are marked
"Modelled from the spec".
-/

namespace moora

/-- `util.MAX`: the marker for a criterion to maximize (+1). -/
def MAX : ℚ := 1

/-- `util.MIN`: the marker for a criterion to minimize (-1). -/
def MIN : ℚ := -1

/-- Modelled from the spec: `rank.rankdata(points, reverse=False)` (module
`rank` is not in the source tree).  Zero-based ranks: with
`reverse = false` ascending (smallest point value gets rank 0), with
`reverse = true` descending (largest point value gets rank 0); ties are
broken by original index (stable).  The rank of `i` is the number of
indices strictly better than `i` in this order. -/
def rankdata {n : ℕ} {α : Type} [LinearOrder α] (p : Fin n → α) (reverse : Bool) :
    Fin n → ℕ :=
  if reverse then
    fun i => (Finset.univ.filter (fun j => p i < p j ∨ (p j = p i ∧ j < i))).card
  else
    fun i => (Finset.univ.filter (fun j => p j < p i ∨ (p j = p i ∧ j < i))).card

/-- Modelled from the spec: `rank.dominance(a, b)` (module `rank` is not in
the source tree).  Compares two rank vectors component-wise: the number of
components where `a` is favored (lower rank value = favored) minus the
number of components where `b` is favored. -/
def dominance {k : ℕ} (a b : Fin k → ℕ) : ℤ :=
  ((Finset.univ.filter (fun i => a i < b i)).card : ℤ) -
    ((Finset.univ.filter (fun i => b i < a i)).card : ℤ)

/-- Minimum of column `j` (`np.min(mtx, axis=0)` at `j`). -/
def colMin {n m : ℕ} (mtx : Fin (n + 1) → Fin m → ℚ) (j : Fin m) : ℚ :=
  Finset.univ.inf' ⟨0, Finset.mem_univ 0⟩ (fun i => mtx i j)

/-- Maximum of column `j` (`np.max(mtx, axis=0)` at `j`). -/
def colMax {n m : ℕ} (mtx : Fin (n + 1) → Fin m → ℚ) (j : Fin m) : ℚ :=
  Finset.univ.sup' ⟨0, Finset.mem_univ 0⟩ (fun i => mtx i j)

/-- Modelled from the spec: `norm.push_negatives(M, axis=0)` (module `norm`
is not in the source tree).  Per column: if the column minimum is negative,
add its absolute value to every element of the column; otherwise leave the
column unchanged. -/
def push_negatives {n m : ℕ} (mtx : Fin (n + 1) → Fin m → ℚ) :
    Fin (n + 1) → Fin m → ℚ :=
  fun i j => if colMin mtx j < 0 then mtx i j + |colMin mtx j| else mtx i j

/-- Modelled from the spec: `norm.add1to0(M, axis=0)` (module `norm` is not
in the source tree).  Per column: if the column minimum is exactly 0, add 1
to every element of the column; otherwise leave the column unchanged. -/
def add1to0 {n m : ℕ} (mtx : Fin (n + 1) → Fin m → ℚ) :
    Fin (n + 1) → Fin m → ℚ :=
  fun i j => if colMin mtx j = 0 then mtx i j + 1 else mtx i j

/-- Modelled from the spec: `norm.vector(M, axis=0)` (module `norm` is not
in the source tree).  Divides each column by its Euclidean norm, the square
root of the sum of squares of the column; the square root function is a
parameter of the embedding. -/
def vector_norm {n m : ℕ} (sqrtf : ℚ → ℚ) (mtx : Fin (n + 1) → Fin m → ℚ) :
    Fin (n + 1) → Fin m → ℚ :=
  fun i j => mtx i j / sqrtf (∑ i2, (mtx i2 j) ^ 2)

/-- `_ratio(nmtx, criteria, nweights)` from `moora.py`: weighted criteria
vector `cweights = nweights * criteria`, score of each alternative by inner
product of its row with `cweights`, rank descending. -/
def _ratio {n m : ℕ} (nmtx : Fin n → Fin m → ℚ) (criteria : Fin m → ℚ)
    (nweights : Fin m → ℚ) : (Fin n → ℕ) × (Fin n → ℚ) :=
  let cweights := fun j => nweights j * criteria j
  let points := fun i => ∑ j, nmtx i j * cweights j
  (rankdata points true, points)

/-- `_refpoint(nmtx, criteria, weights)` from `moora.py`: per-column max and
min reference points merged according to `criteria` through the mask
`np.where(criteria == MAX, criteria, 0)`, score of each alternative as the
row maximum of `|weights * (nmtx - rpoints)|`, rank ascending (no reverse
flag). -/
def _refpoint {n m : ℕ} (nmtx : Fin (n + 1) → Fin (m + 1) → ℚ)
    (criteria : Fin (m + 1) → ℚ) (weights : Fin (m + 1) → ℚ) :
    (Fin (n + 1) → ℕ) × (Fin (n + 1) → ℚ) :=
  let rpmax := colMax nmtx
  let rpmin := colMin nmtx
  let mask := fun j => if criteria j = MAX then criteria j else 0
  let rpoints := fun j => if mask j ≠ 0 then rpmax j else rpmin j
  let points := fun i =>
    Finset.univ.sup' ⟨0, Finset.mem_univ 0⟩
      (fun j => |weights j * (nmtx i j - rpoints j)|)
  (rankdata points false, points)

/-- `_fmf(nmtx, criteria)` from `moora.py`: take logarithms entrywise; when
every criterion is MAX the score is the row sum of logs, when every
criterion is MIN it is 1 minus the row sum of logs, otherwise the columns
whose criterion is MAX are deleted to form `min_arr` and the columns whose
criterion is MIN are deleted to form `max_arr`, and the score is the row
sum of `max_arr` minus the row sum of `min_arr`; rank descending.  The
logarithm is a parameter of the embedding. -/
def _fmf {n m : ℕ} (logf : ℚ → ℚ) (nmtx : Fin n → Fin m → ℚ)
    (criteria : Fin m → ℚ) : (Fin n → ℕ) × (Fin n → ℚ) :=
  let lmtx := fun i j => logf (nmtx i j)
  let points :=
    if ∀ j, criteria j = MAX then
      fun i => ∑ j, lmtx i j
    else if ∀ j, criteria j = MIN then
      fun i => 1 - ∑ j, lmtx i j
    else
      let mins := fun i => ∑ j ∈ Finset.univ.filter (fun j => criteria j ≠ MAX), lmtx i j
      let maxs := fun i => ∑ j ∈ Finset.univ.filter (fun j => criteria j ≠ MIN), lmtx i j
      fun i => maxs i - mins i
  (rankdata points true, points)

/-- `fmf(mtx, criteria, mnorm=norm.vector)` from `moora.py` with the default
matrix norm: `push_negatives`, then `add1to0`, then the vector norm, then
`_fmf`. -/
def fmf {n m : ℕ} (sqrtf logf : ℚ → ℚ) (mtx : Fin (n + 1) → Fin (m + 1) → ℚ)
    (criteria : Fin (m + 1) → ℚ) : (Fin (n + 1) → ℕ) × (Fin (n + 1) → ℚ) :=
  let non_negative := push_negatives mtx
  let non_zero := add1to0 non_negative
  let nmtx := vector_norm sqrtf non_zero
  _fmf logf nmtx criteria

/-- `itertools.combinations(range(n), 2)`: the ordered pairs `(a, b)` with
`a < b`, in lexicographic order. -/
def pairs (n : ℕ) : List (Fin n × Fin n) :=
  ((List.finRange n).product (List.finRange n)).filter (fun p => p.1 < p.2)

/-- The index that receives the point for the pair `p = (idx0, idx1)`:
`idx0` when the dominance of the rank-matrix rows is strictly positive,
`idx1` otherwise (`dom_idx = idx0 if dom > 0 else idx1`). -/
def mmWinner {n : ℕ} (rank_mtx : Fin n → Fin 3 → ℕ) (p : Fin n × Fin n) : Fin n :=
  if 0 < dominance (rank_mtx p.1) (rank_mtx p.2) then p.1 else p.2

/-- The body of the pairwise voting loop of `multimoora`:
`points[dom_idx] += 1`. -/
def mmStep {n : ℕ} (rank_mtx : Fin n → Fin 3 → ℕ) (points : Fin n → ℕ)
    (p : Fin n × Fin n) : Fin n → ℕ :=
  Function.update points (mmWinner rank_mtx p) (points (mmWinner rank_mtx p) + 1)

/-- The pairwise dominance voting loop of `multimoora`: starting from the
zero tally, for each pair `(idx0, idx1)` with `idx0 < idx1`, one point goes
to `idx0` when the dominance of their rank-matrix rows is strictly positive
and to `idx1` otherwise. -/
def mmPoints {n : ℕ} (rank_mtx : Fin n → Fin 3 → ℕ) : Fin n → ℕ :=
  (pairs n).foldl (mmStep rank_mtx) (fun _ => 0)

/-- `multimoora(mtx, criteria, mnorm)` from `moora.py`: normalize the matrix
once, run `_ratio`, `_refpoint` and `_fmf` on it with weights 1, assemble
the rank matrix with those three rank vectors as columns in that order, run
the pairwise dominance voting loop, and rank the points tally descending. -/
def multimoora {n m : ℕ}
    (mnorm : (Fin (n + 1) → Fin (m + 1) → ℚ) → Fin (n + 1) → Fin (m + 1) → ℚ)
    (logf : ℚ → ℚ) (mtx : Fin (n + 1) → Fin (m + 1) → ℚ)
    (criteria : Fin (m + 1) → ℚ) :
    (Fin (n + 1) → ℕ) × (Fin (n + 1) → Fin 3 → ℕ) :=
  let nmtx := mnorm mtx
  let ratio_rank := (_ratio nmtx criteria (fun _ => 1)).1
  let refpoint_rank := (_refpoint nmtx criteria (fun _ => 1)).1
  let fmf_rank := (_fmf logf nmtx criteria).1
  let rank_mtx : Fin (n + 1) → Fin 3 → ℕ := fun i k =>
    if k = 0 then ratio_rank i else if k = 1 then refpoint_rank i else fmf_rank i
  let points := mmPoints rank_mtx
  (rankdata points true, rank_mtx)

end moora

namespace moora

lemma rankdata_false_apply {n : ℕ} {α : Type} [LinearOrder α] (p : Fin n → α) (i : Fin n) :
    rankdata p false i
      = (Finset.univ.filter (fun j => p j < p i ∨ (p j = p i ∧ j < i))).card := by
  simp [rankdata]

lemma rankdata_true_apply {n : ℕ} {α : Type} [LinearOrder α] (p : Fin n → α) (i : Fin n) :
    rankdata p true i
      = (Finset.univ.filter (fun j => p i < p j ∨ (p j = p i ∧ j < i))).card := by
  simp [rankdata]

lemma rankdata_false_first_min {n : ℕ} {α : Type} [LinearOrder α]
    (p : Fin (n + 1) → α) :
    ∃ i, (∀ j, p i ≤ p j) ∧ rankdata p false i = 0 := by
  classical
  set S : Finset (Fin (n + 1)) :=
    Finset.univ.filter (fun i => ∀ j, p i ≤ p j) with hS
  obtain ⟨i0, -, hi0⟩ :=
    Finset.exists_min_image Finset.univ p ⟨0, Finset.mem_univ 0⟩
  have hSne : S.Nonempty :=
    ⟨i0, by
      simp only [hS, Finset.mem_filter, Finset.mem_univ, true_and]
      exact fun j => hi0 j (Finset.mem_univ j)⟩
  have hiS : S.min' hSne ∈ S := S.min'_mem hSne
  have hmin : ∀ j, p (S.min' hSne) ≤ p j := (Finset.mem_filter.1 hiS).2
  refine ⟨S.min' hSne, hmin, ?_⟩
  rw [rankdata_false_apply, Finset.card_eq_zero, Finset.filter_eq_empty_iff]
  intro j _
  push_neg
  refine ⟨hmin j, fun hje => ?_⟩
  refine S.min'_le j ?_
  simp only [hS, Finset.mem_filter, Finset.mem_univ, true_and]
  exact fun k => hje ▸ hmin k

lemma rankdata_true_first_max {n : ℕ} {α : Type} [LinearOrder α]
    (p : Fin (n + 1) → α) :
    ∃ i, (∀ j, p j ≤ p i) ∧ rankdata p true i = 0 := by
  classical
  set S : Finset (Fin (n + 1)) :=
    Finset.univ.filter (fun i => ∀ j, p j ≤ p i) with hS
  obtain ⟨i0, -, hi0⟩ :=
    Finset.exists_max_image Finset.univ p ⟨0, Finset.mem_univ 0⟩
  have hSne : S.Nonempty :=
    ⟨i0, by
      simp only [hS, Finset.mem_filter, Finset.mem_univ, true_and]
      exact fun j => hi0 j (Finset.mem_univ j)⟩
  have hiS : S.min' hSne ∈ S := S.min'_mem hSne
  have hmax : ∀ j, p j ≤ p (S.min' hSne) := (Finset.mem_filter.1 hiS).2
  refine ⟨S.min' hSne, hmax, ?_⟩
  rw [rankdata_true_apply, Finset.card_eq_zero, Finset.filter_eq_empty_iff]
  intro j _
  push_neg
  refine ⟨hmax j, fun hje => ?_⟩
  refine S.min'_le j ?_
  simp only [hS, Finset.mem_filter, Finset.mem_univ, true_and]
  exact fun k => hje ▸ hmax k

/-- C1: the refpoint operation ranks ascending — its rank vector is
`rankdata` of its deviation scores with no reverse flag, and some
alternative of minimal deviation score receives rank 0 — while the ratio
and fmf operations rank descending — their rank vectors are `rankdata` of
their scores with `reverse = true`, and some alternative of maximal score
receives rank 0. -/
theorem C1_rank_directions {n m : ℕ} (nmtx : Fin (n + 1) → Fin (m + 1) → ℚ)
    (criteria weights : Fin (m + 1) → ℚ) (logf : ℚ → ℚ) :
    ((_refpoint nmtx criteria weights).1
        = rankdata (_refpoint nmtx criteria weights).2 false
      ∧ ∃ i, (∀ j, (_refpoint nmtx criteria weights).2 i
                ≤ (_refpoint nmtx criteria weights).2 j)
          ∧ (_refpoint nmtx criteria weights).1 i = 0)
    ∧ ((_ratio nmtx criteria weights).1
        = rankdata (_ratio nmtx criteria weights).2 true
      ∧ ∃ i, (∀ j, (_ratio nmtx criteria weights).2 j
                ≤ (_ratio nmtx criteria weights).2 i)
          ∧ (_ratio nmtx criteria weights).1 i = 0)
    ∧ ((_fmf logf nmtx criteria).1
        = rankdata (_fmf logf nmtx criteria).2 true
      ∧ ∃ i, (∀ j, (_fmf logf nmtx criteria).2 j
                ≤ (_fmf logf nmtx criteria).2 i)
          ∧ (_fmf logf nmtx criteria).1 i = 0) :=
  ⟨⟨rfl, rankdata_false_first_min _⟩,
   ⟨rfl, rankdata_true_first_max _⟩,
   ⟨rfl, rankdata_true_first_max _⟩⟩

end moora

namespace moora

lemma ratio_points_def {n m : ℕ} (nmtx : Fin n → Fin m → ℚ) (criteria nweights : Fin m → ℚ) :
    (_ratio nmtx criteria nweights).2
      = fun i => ∑ j, nmtx i j * (nweights j * criteria j) := rfl

lemma refpoint_points_def {n m : ℕ} (nmtx : Fin (n + 1) → Fin (m + 1) → ℚ)
    (criteria weights : Fin (m + 1) → ℚ) :
    (_refpoint nmtx criteria weights).2
      = fun i =>
          Finset.univ.sup' ⟨0, Finset.mem_univ 0⟩
            (fun j => |weights j *
              (nmtx i j -
                (if (if criteria j = MAX then criteria j else 0) ≠ 0 then colMax nmtx j
                 else colMin nmtx j))|) := rfl

lemma fmf_points_def {n m : ℕ} (logf : ℚ → ℚ) (nmtx : Fin n → Fin m → ℚ)
    (criteria : Fin m → ℚ) :
    (_fmf logf nmtx criteria).2
      = if ∀ j, criteria j = MAX then
          fun i => ∑ j, logf (nmtx i j)
        else if ∀ j, criteria j = MIN then
          fun i => 1 - ∑ j, logf (nmtx i j)
        else
          fun i =>
            (∑ j ∈ Finset.univ.filter (fun j => criteria j ≠ MIN), logf (nmtx i j))
              - ∑ j ∈ Finset.univ.filter (fun j => criteria j ≠ MAX), logf (nmtx i j) := rfl

/-- C5: the ratio score of alternative `i` equals the inner product of row
`i` of the normalized matrix with the element-wise product of the weights
and the criteria vector: the sum over columns `j` of
`nmtx i j * nweights j * criteria j`. -/
theorem C5_ratio_score {n m : ℕ} (nmtx : Fin n → Fin m → ℚ)
    (criteria nweights : Fin m → ℚ) (i : Fin n) :
    (_ratio nmtx criteria nweights).2 i
      = ∑ j, nmtx i j * nweights j * criteria j := by
  rw [ratio_points_def]
  exact Finset.sum_congr rfl (fun j _ => by ring)

/-- C6: the refpoint score of alternative `i` equals the maximum over
columns `j` of `|weights j * (nmtx i j - reference j)|`, where `reference j`
is the maximum of column `j` when criterion `j` is MAX and the minimum of
column `j` otherwise. -/
theorem C6_refpoint_score {n m : ℕ} (nmtx : Fin (n + 1) → Fin (m + 1) → ℚ)
    (criteria weights : Fin (m + 1) → ℚ) (i : Fin (n + 1)) :
    (_refpoint nmtx criteria weights).2 i
      = Finset.univ.sup' ⟨0, Finset.mem_univ 0⟩
          (fun j => |weights j *
            (nmtx i j -
              (if criteria j = MAX then colMax nmtx j else colMin nmtx j))|) := by
  rw [refpoint_points_def]
  refine Finset.sup'_congr _ rfl (fun j _ => ?_)
  by_cases h : criteria j = MAX
  · simp only [if_pos h, h]
    norm_num [MAX]
  · simp only [if_neg h]
    norm_num

/-- C4: for a strictly positive matrix with mixed criteria (at least one
MAX and at least one MIN, all entries MAX or MIN), the fmf score of each
alternative equals the sum of the logarithms of its entries in MAX columns
minus the sum of the logarithms of its entries in MIN columns. -/
theorem C4_fmf_mixed {n m : ℕ} (logf : ℚ → ℚ) (nmtx : Fin n → Fin (m + 1) → ℚ)
    (criteria : Fin (m + 1) → ℚ)
    (hpos : ∀ i j, 0 < nmtx i j)
    (hdi : ∀ j, criteria j = MAX ∨ criteria j = MIN)
    (hmax : ∃ j, criteria j = MAX) (hmin : ∃ j, criteria j = MIN) (i : Fin n) :
    (_fmf logf nmtx criteria).2 i
      = (∑ j ∈ Finset.univ.filter (fun j => criteria j = MAX), logf (nmtx i j))
        - ∑ j ∈ Finset.univ.filter (fun j => criteria j = MIN), logf (nmtx i j) := by
  obtain ⟨j1, hj1⟩ := hmax
  obtain ⟨j2, hj2⟩ := hmin
  have hnall1 : ¬ ∀ j, criteria j = MAX := by
    intro h
    rw [h j2] at hj2
    norm_num [MAX, MIN] at hj2
  have hnall2 : ¬ ∀ j, criteria j = MIN := by
    intro h
    rw [h j1] at hj1
    norm_num [MAX, MIN] at hj1
  rw [fmf_points_def, if_neg hnall1, if_neg hnall2]
  have h1 : Finset.univ.filter (fun j => criteria j ≠ MIN)
      = Finset.univ.filter (fun j => criteria j = MAX) := by
    refine Finset.filter_congr (fun j _ => ?_)
    rcases hdi j with h | h <;> rw [h] <;> norm_num [MAX, MIN]
  have h2 : Finset.univ.filter (fun j => criteria j ≠ MAX)
      = Finset.univ.filter (fun j => criteria j = MIN) := by
    refine Finset.filter_congr (fun j _ => ?_)
    rcases hdi j with h | h <;> rw [h] <;> norm_num [MAX, MIN]
  rw [h1, h2]

end moora

namespace moora

lemma rankdata_const_add {n : ℕ} (a : ℚ) (p : Fin n → ℚ) (rev : Bool) :
    rankdata (fun i => a + p i) rev = rankdata p rev := by
  cases rev
  · funext i
    rw [rankdata_false_apply, rankdata_false_apply]
    refine congrArg Finset.card (Finset.filter_congr fun j _ => ?_)
    simp [add_lt_add_iff_left, add_right_inj]
  · funext i
    rw [rankdata_true_apply, rankdata_true_apply]
    refine congrArg Finset.card (Finset.filter_congr fun j _ => ?_)
    simp [add_lt_add_iff_left, add_right_inj]

/-- The general mixed FMF formula as the spec words it, for comparison with
the special-case branches of `_fmf`: the row sum of logs over MAX columns
minus the row sum of logs over MIN columns. -/
def mixed_formula_spec {n m : ℕ} (logf : ℚ → ℚ) (nmtx : Fin n → Fin m → ℚ)
    (criteria : Fin m → ℚ) (i : Fin n) : ℚ :=
  (∑ j ∈ Finset.univ.filter (fun j => criteria j = MAX), logf (nmtx i j))
    - ∑ j ∈ Finset.univ.filter (fun j => criteria j = MIN), logf (nmtx i j)

/-- A strictly positive 1×1 matrix used as concrete input. -/
def posM1 : Fin 1 → Fin 1 → ℚ := fun _ _ => 2

/-- An all-MIN criteria vector on one column. -/
def allMin1 : Fin 1 → ℚ := fun _ => MIN

/-- C3, counterexample: on an all-MIN one-column strictly positive matrix
the fmf special-case score (1 minus the row sum of logs) is NOT numerically
equal to the general mixed formula restricted to that case (which gives
minus the row sum of logs): the two differ by the constant 1. -/
theorem C3_counterexample :
    (_fmf (fun x => x) posM1 allMin1).2 0
      ≠ mixed_formula_spec (fun x => x) posM1 allMin1 0 := by
  rw [fmf_points_def, if_neg (by decide), if_pos (by decide)]
  unfold mixed_formula_spec
  rw [(by decide : Finset.univ.filter (fun j => allMin1 j = MAX) = (∅ : Finset (Fin 1))),
    (by decide : Finset.univ.filter (fun j => allMin1 j = MIN) = (Finset.univ : Finset (Fin 1)))]
  rw [Finset.sum_empty, Fin.sum_univ_one]
  norm_num [posM1]

/-- C3, amended: for a strictly positive matrix, the all-MAX special case
of fmf equals the row-sum-of-logs formula and the general mixed formula
exactly; the all-MIN special case equals 1 plus the general mixed formula —
a constant shift — so its descending ranking coincides with the ranking the
general formula induces, but its score differs from the general formula by
the constant 1. -/
theorem C3_fmf_special_cases {n m : ℕ} (logf : ℚ → ℚ)
    (nmtx : Fin n → Fin (m + 1) → ℚ) (criteria : Fin (m + 1) → ℚ)
    (hpos : ∀ i j, 0 < nmtx i j) :
    ((∀ j, criteria j = MAX) →
      ∀ i, (_fmf logf nmtx criteria).2 i = ∑ j, logf (nmtx i j)
        ∧ (_fmf logf nmtx criteria).2 i = mixed_formula_spec logf nmtx criteria i)
    ∧ ((∀ j, criteria j = MIN) →
      (∀ i, (_fmf logf nmtx criteria).2 i
          = 1 + mixed_formula_spec logf nmtx criteria i)
        ∧ (_fmf logf nmtx criteria).1
            = rankdata (fun i => mixed_formula_spec logf nmtx criteria i) true) := by
  constructor
  · intro h i
    have hfM : Finset.univ.filter (fun j => criteria j = MAX) = Finset.univ :=
      Finset.filter_true_of_mem (fun j _ => h j)
    have hfm : Finset.univ.filter (fun j => criteria j = MIN) = (∅ : Finset (Fin (m + 1))) := by
      refine Finset.filter_false_of_mem (fun j _ => ?_)
      rw [h j]
      norm_num [MAX, MIN]
    have hpt : (_fmf logf nmtx criteria).2 i = ∑ j, logf (nmtx i j) := by
      rw [fmf_points_def, if_pos h]
    refine ⟨hpt, ?_⟩
    rw [hpt]
    unfold mixed_formula_spec
    rw [hfM, hfm]
    simp
  · intro h
    have hn1 : ¬ ∀ j, criteria j = MAX := by
      intro ha
      have := ha 0
      rw [h 0] at this
      norm_num [MAX, MIN] at this
    have hfM : Finset.univ.filter (fun j => criteria j = MAX) = (∅ : Finset (Fin (m + 1))) := by
      refine Finset.filter_false_of_mem (fun j _ => ?_)
      rw [h j]
      norm_num [MAX, MIN]
    have hfm : Finset.univ.filter (fun j => criteria j = MIN) = Finset.univ :=
      Finset.filter_true_of_mem (fun j _ => h j)
    have hspec : ∀ i, mixed_formula_spec logf nmtx criteria i = -∑ j, logf (nmtx i j) := by
      intro i
      unfold mixed_formula_spec
      rw [hfM, hfm]
      simp
    have hpt : (_fmf logf nmtx criteria).2
        = fun i => 1 - ∑ j, logf (nmtx i j) := by
      rw [fmf_points_def, if_neg hn1, if_pos h]
    constructor
    · intro i
      rw [hpt, hspec i]
      ring
    · have h1 : (_fmf logf nmtx criteria).1
          = rankdata (_fmf logf nmtx criteria).2 true := rfl
      rw [h1, hpt]
      have h2 : (fun i => 1 - ∑ j, logf (nmtx i j))
          = fun i => 1 + mixed_formula_spec logf nmtx criteria i := by
        funext i
        rw [hspec i]
        ring
      rw [h2, rankdata_const_add]

/-- A strictly positive 1×2 matrix used as concrete input. -/
def posM2 : Fin 1 → Fin 2 → ℚ := fun _ j => if j = 0 then 2 else 3

/-- A mixed criteria vector: first column MAX, second MIN. -/
def critMix : Fin 2 → ℚ := fun j => if j = 0 then MAX else MIN

/-- Witness for C4 at a concrete input. -/
theorem C4_fmf_mixed_witness :
    (_fmf (fun x => x) posM2 critMix).2 0
      = (∑ j ∈ Finset.univ.filter (fun j => critMix j = MAX), (fun x => x) (posM2 0 j))
        - ∑ j ∈ Finset.univ.filter (fun j => critMix j = MIN), (fun x => x) (posM2 0 j) :=
  C4_fmf_mixed (fun x => x) posM2 critMix (by decide) (by decide)
    ⟨0, by decide⟩ ⟨1, by decide⟩ 0

/-- An all-MAX criteria vector on one column. -/
def allMax1 : Fin 1 → ℚ := fun _ => MAX

/-- Witness for the amended C3 at concrete inputs. -/
theorem C3_fmf_special_cases_witness :
    ((_fmf (fun x => x) posM1 allMax1).2 0 = ∑ j, (fun x => x) (posM1 0 j)
        ∧ (_fmf (fun x => x) posM1 allMax1).2 0
            = mixed_formula_spec (fun x => x) posM1 allMax1 0)
      ∧ (_fmf (fun x => x) posM1 allMin1).2 0
          = 1 + mixed_formula_spec (fun x => x) posM1 allMin1 0 :=
  ⟨(C3_fmf_special_cases (fun x => x) posM1 allMax1 (by decide)).1 (by decide) 0,
   ((C3_fmf_special_cases (fun x => x) posM1 allMin1 (by decide)).2 (by decide)).1 0⟩

end moora

namespace moora

lemma foldl_mmStep_apply {n : ℕ} (rm : Fin n → Fin 3 → ℕ) :
    ∀ (l : List (Fin n × Fin n)) (init : Fin n → ℕ) (i : Fin n),
      (l.foldl (mmStep rm) init) i
        = init i + (l.filter (fun p => mmWinner rm p = i)).length := by
  intro l
  induction l with
  | nil => intro init i; simp
  | cons p l ih =>
    intro init i
    rw [List.foldl_cons, ih]
    by_cases h : mmWinner rm p = i
    · rw [List.filter_cons_of_pos (by simp [h])]
      unfold mmStep
      rw [h, Function.update_same, List.length_cons]
      omega
    · rw [List.filter_cons_of_neg (by simp [h])]
      unfold mmStep
      rw [Function.update_noteq (Ne.symm h)]

lemma foldl_mmStep_sum {n : ℕ} (rm : Fin n → Fin 3 → ℕ) :
    ∀ (l : List (Fin n × Fin n)) (init : Fin n → ℕ),
      (∑ i, (l.foldl (mmStep rm) init) i) = (∑ i, init i) + l.length := by
  intro l
  induction l with
  | nil => intro init; simp
  | cons p l ih =>
    intro init
    rw [List.foldl_cons, ih]
    have hupd : (∑ i, mmStep rm init p i) = (∑ i, init i) + 1 := by
      unfold mmStep
      rw [Finset.sum_update_of_mem (Finset.mem_univ _)]
      have hsplit : (∑ i, init i)
          = (∑ i ∈ Finset.univ \ {mmWinner rm p}, init i) + init (mmWinner rm p) := by
        rw [Finset.sum_eq_sum_diff_singleton_add (Finset.mem_univ (mmWinner rm p))]
      omega
    rw [hupd, List.length_cons]
    omega

lemma mmPoints_apply {n : ℕ} (rm : Fin n → Fin 3 → ℕ) (i : Fin n) :
    mmPoints rm i = ((pairs n).filter (fun p => mmWinner rm p = i)).length := by
  unfold mmPoints
  rw [foldl_mmStep_apply]
  omega

lemma mem_pairs {n : ℕ} (p : Fin n × Fin n) : p ∈ pairs n ↔ p.1 < p.2 := by
  obtain ⟨a, b⟩ := p
  simp [pairs, List.mem_filter, List.mem_product]

lemma pairs_nodup (n : ℕ) : (pairs n).Nodup :=
  List.Nodup.filter _
    (List.Nodup.product (List.nodup_finRange n) (List.nodup_finRange n))

lemma pairs_length (n : ℕ) : (pairs n).length = n * (n - 1) / 2 := by
  classical
  rw [← List.toFinset_card_of_nodup (pairs_nodup n)]
  have htf : (pairs n).toFinset
      = Finset.univ.filter (fun p : Fin n × Fin n => p.1 < p.2) := by
    ext p
    simp [List.mem_toFinset, mem_pairs p]
  rw [htf]
  rw [Finset.card_eq_sum_card_fiberwise
    (f := Prod.fst) (t := Finset.univ) (fun x _ => Finset.mem_univ _)]
  have hfib : ∀ a : Fin n,
      ((Finset.univ.filter (fun p : Fin n × Fin n => p.1 < p.2)).filter
        (fun p => p.1 = a)).card = n - 1 - a.val := by
    intro a
    rw [← Fin.card_Ioi a]
    apply Finset.card_bij (fun p _ => p.2)
    · intro p hp
      simp only [Finset.mem_filter, Finset.mem_univ, true_and] at hp
      rw [Finset.mem_Ioi]
      rw [← hp.2]
      exact hp.1
    · intro p hp q hq hpq
      simp only [Finset.mem_filter, Finset.mem_univ, true_and] at hp hq
      ext
      · rw [hp.2, hq.2]
      · exact congrArg Fin.val hpq
    · intro b hb
      rw [Finset.mem_Ioi] at hb
      exact ⟨(a, b), by simp [hb], rfl⟩
  calc (∑ a : Fin n,
        ((Finset.univ.filter (fun p : Fin n × Fin n => p.1 < p.2)).filter
          (fun p => p.1 = a)).card)
      = ∑ a : Fin n, (n - 1 - a.val) := by
        exact Finset.sum_congr rfl (fun a _ => hfib a)
    _ = ∑ a ∈ Finset.range n, (n - 1 - a) := Fin.sum_univ_eq_sum_range _ n
    _ = ∑ a ∈ Finset.range n, a := Finset.sum_range_reflect (fun x => x) n
    _ = n * (n - 1) / 2 := Finset.sum_range_id n

end moora

namespace moora

/-- C2: the final multimoora rank vector is `rankdata` of the points tally
with `reverse = true` (more points = better rank); the tally awards, for
each pair in the loop's pair list, exactly one point — to the first
component when the dominance of the two rank rows is strictly positive and
to the second (higher-index) component otherwise — and that pair list
enumerates each unordered pair `(i, j)` with `i < j` exactly once. -/
theorem C2_multimoora_voting {n m : ℕ}
    (mnorm : (Fin (n + 1) → Fin (m + 1) → ℚ) → Fin (n + 1) → Fin (m + 1) → ℚ)
    (logf : ℚ → ℚ) (mtx : Fin (n + 1) → Fin (m + 1) → ℚ)
    (criteria : Fin (m + 1) → ℚ) :
    (multimoora mnorm logf mtx criteria).1
        = rankdata (mmPoints (multimoora mnorm logf mtx criteria).2) true
    ∧ (∀ (rm : Fin (n + 1) → Fin 3 → ℕ) (i : Fin (n + 1)),
        mmPoints rm i
          = ((pairs (n + 1)).filter (fun p => mmWinner rm p = i)).length)
    ∧ (∀ (rm : Fin (n + 1) → Fin 3 → ℕ) (p : Fin (n + 1) × Fin (n + 1)),
        mmWinner rm p = if 0 < dominance (rm p.1) (rm p.2) then p.1 else p.2)
    ∧ (∀ p : Fin (n + 1) × Fin (n + 1), p ∈ pairs (n + 1) ↔ p.1 < p.2)
    ∧ (pairs (n + 1)).Nodup :=
  ⟨rfl, fun rm i => mmPoints_apply rm i, fun _ _ => rfl,
   fun p => mem_pairs p, pairs_nodup _⟩

/-- C10: the multimoora points tally (natural numbers by construction) sums
to `n * (n - 1) / 2` — one point per unordered pair of alternatives — and
for a single alternative the tally is identically 0. -/
theorem C10_points_total {n : ℕ} (rm : Fin n → Fin 3 → ℕ) :
    (∑ i, mmPoints rm i) = n * (n - 1) / 2
    ∧ ∀ rm1 : Fin 1 → Fin 3 → ℕ, mmPoints rm1 = fun _ => 0 := by
  constructor
  · unfold mmPoints
    rw [foldl_mmStep_sum, pairs_length]
    simp
  · intro rm1
    funext i
    rw [mmPoints_apply]
    rw [(by decide : pairs 1 = ([] : List (Fin 1 × Fin 1)))]
    rfl

/-- C7: multimoora applies the matrix norm once and its rank matrix has, in
fixed column order, the ratio rank vector, the refpoint rank vector and the
fmf rank vector, each computed on that same normalized matrix with unit
weights. -/
theorem C7_multimoora_structure {n m : ℕ}
    (mnorm : (Fin (n + 1) → Fin (m + 1) → ℚ) → Fin (n + 1) → Fin (m + 1) → ℚ)
    (logf : ℚ → ℚ) (mtx : Fin (n + 1) → Fin (m + 1) → ℚ)
    (criteria : Fin (m + 1) → ℚ) (i : Fin (n + 1)) :
    (multimoora mnorm logf mtx criteria).2 i 0
        = (_ratio (mnorm mtx) criteria (fun _ => 1)).1 i
    ∧ (multimoora mnorm logf mtx criteria).2 i 1
        = (_refpoint (mnorm mtx) criteria (fun _ => 1)).1 i
    ∧ (multimoora mnorm logf mtx criteria).2 i 2
        = (_fmf logf (mnorm mtx) criteria).1 i :=
  ⟨rfl, rfl, rfl⟩

/-- C8: the fmf operation applies `push_negatives`, then `add1to0`, then
the vector norm, in that order, before `_fmf` takes logarithms; and — when
the square root of a positive number is positive — every entry of the
matrix fed to the logarithm is strictly positive. -/
theorem C8_fmf_pipeline {n m : ℕ} (sqrtf logf : ℚ → ℚ)
    (hsq : ∀ x : ℚ, 0 < x → 0 < sqrtf x)
    (mtx : Fin (n + 1) → Fin (m + 1) → ℚ) (criteria : Fin (m + 1) → ℚ) :
    fmf sqrtf logf mtx criteria
        = _fmf logf (vector_norm sqrtf (add1to0 (push_negatives mtx))) criteria
    ∧ ∀ i j, 0 < vector_norm sqrtf (add1to0 (push_negatives mtx)) i j := by
  refine ⟨rfl, fun i j => ?_⟩
  have hinf : ∀ (mtx2 : Fin (n + 1) → Fin (m + 1) → ℚ) (i2 : Fin (n + 1))
      (j2 : Fin (m + 1)), colMin mtx2 j2 ≤ mtx2 i2 j2 := by
    intro mtx2 i2 j2
    exact Finset.inf'_le _ (Finset.mem_univ i2)
  have hpn : ∀ i2 j2, 0 ≤ push_negatives mtx i2 j2 := by
    intro i2 j2
    unfold push_negatives
    by_cases h : colMin mtx j2 < 0
    · rw [if_pos h, abs_of_neg h]
      have := hinf mtx i2 j2
      linarith
    · rw [if_neg h]
      push_neg at h
      have := hinf mtx i2 j2
      linarith
  have hpos : ∀ i2 j2, 0 < add1to0 (push_negatives mtx) i2 j2 := by
    intro i2 j2
    unfold add1to0
    by_cases h : colMin (push_negatives mtx) j2 = 0
    · rw [if_pos h]
      have := hpn i2 j2
      linarith
    · rw [if_neg h]
      have h1 : 0 ≤ colMin (push_negatives mtx) j2 := by
        unfold colMin
        exact Finset.le_inf' _ _ (fun b _ => hpn b j2)
      have h2 := hinf (push_negatives mtx) i2 j2
      rcases lt_or_eq_of_le h1 with hlt | heq
      · linarith
      · exact absurd heq.symm h
  unfold vector_norm
  refine div_pos (hpos i j) (hsq _ ?_)
  refine Finset.sum_pos (fun k _ => pow_pos (hpos k j) 2) ⟨0, Finset.mem_univ 0⟩

/-- A 1×1 matrix with a negative entry, used as concrete input. -/
def negM : Fin 1 → Fin 1 → ℚ := fun _ _ => -2

/-- Witness for C8 at a concrete input with a negative entry. -/
theorem C8_fmf_pipeline_witness :
    0 < vector_norm (fun x => x) (add1to0 (push_negatives negM)) 0 0 :=
  (C8_fmf_pipeline (fun x => x) (fun x => x) (fun _ hx => hx) negM allMin1).2 0 0

/-- A 2×1 matrix containing a zero entry; its single column has Euclidean
norm exactly 1. -/
def zeroM : Fin (1 + 1) → Fin (0 + 1) → ℚ := fun i _ => if i = 0 then 0 else 1

/-- C9: multimoora feeds `_fmf` the normalized matrix directly, with no
`push_negatives` or `add1to0` (first conjunct); and on the concrete matrix
`zeroM`, which contains a zero entry, the vector-normalized matrix that
multimoora's FMF component takes logarithms of has a non-positive entry
(second conjunct, for any square root with `sqrtf 1 = 1`). -/
theorem C9_multimoora_log_unsafe :
    (∀ (n m : ℕ)
        (mnorm : (Fin (n + 1) → Fin (m + 1) → ℚ) → Fin (n + 1) → Fin (m + 1) → ℚ)
        (logf : ℚ → ℚ) (mtx : Fin (n + 1) → Fin (m + 1) → ℚ)
        (criteria : Fin (m + 1) → ℚ) (i : Fin (n + 1)),
        (multimoora mnorm logf mtx criteria).2 i 2
          = (_fmf logf (mnorm mtx) criteria).1 i)
    ∧ ∀ sqrtf : ℚ → ℚ, sqrtf 1 = 1 →
        zeroM 0 0 = 0 ∧ vector_norm sqrtf zeroM 0 0 ≤ 0 := by
  constructor
  · intro n m mnorm logf mtx criteria i
    rfl
  · intro sqrtf h1
    refine ⟨rfl, ?_⟩
    unfold vector_norm
    rw [show (∑ i2, (zeroM i2 0) ^ 2) = 1 by
      rw [Fin.sum_univ_two]
      norm_num [zeroM]]
    rw [h1]
    norm_num [zeroM]

/-- Witness for C9 with the identity in place of the square root. -/
theorem C9_multimoora_log_unsafe_witness :
    zeroM 0 0 = 0 ∧ vector_norm (fun x => x) zeroM 0 0 ≤ 0 :=
  C9_multimoora_log_unsafe.2 (fun x => x) rfl

end moora
